import Mathlib

/-!
Shallow embedding of the tg-summary-bot sources (`verter.py`, `rocket.py`)
together with proofs about the embedded operations.

Modelling conventions:
* pure Python fragments become executable Lean functions;
* the SQLite table `messages` (whose `message_id INTEGER PRIMARY KEY` is the
  rowid) becomes a list of rows kept in ascending `message_id` order, the
  order in which a full table scan visits them; `ORDER BY timestamp` becomes
  a stable insertion sort over that scan order;
* the `TEXT` timestamps compared by SQLite are modelled by an arbitrary
  linearly ordered type `τ` (the ISO strings written by the bot compare
  lexicographically, consistently with their chronological order);
* wall-clock instants are integer second counts in the fixed timezone and
  calendar dates are integer day numbers (`t.ediv 86400`);
* Python `set` values become `Finset String`;
* a network send that may raise becomes a `Bool`-valued function; an
  uncaught exception is modelled by an `aborted` flag and by cutting the
  computation at the failing element.
-/

namespace TgBot

/-! ### Stable insertion sort by a key (Python's `list.sort(key=...)`,
SQLite's `ORDER BY` over the scan order) -/
def insertByKey {α β : Type} [LinearOrder β] (key : α → β) (a : α) : List α → List α
  | [] => [a]
  | b :: l => if key a ≤ key b then a :: b :: l else b :: insertByKey key a l

def sortByKey {α β : Type} [LinearOrder β] (key : α → β) : List α → List α
  | [] => []
  | a :: l => insertByKey key a (sortByKey key l)

namespace Verter

/-! ### Event Store (`verter.py`: `init_db`, `save_message`,
`fetch_messages_for_period`)

A row of the `messages` table.  `τ` is the timestamp type (the bot stores
ISO-formatted `TEXT`; SQLite compares it lexicographically, so any linear
order is a faithful abstraction). -/
structure Msg (τ : Type) where
  message_id : Int
  username : String
  message_text : String
  timestamp : τ
  chat_id : Int
  thread_id : Option Int
deriving DecidableEq

/-- SQL `INSERT OR IGNORE INTO messages ... VALUES (...)`: a no-op when a row
with the same `message_id` exists, otherwise the row enters the table, which
the B-tree keeps in ascending `message_id` (rowid) order. -/
def save_message {τ : Type} (store : List (Msg τ)) (m : Msg τ) : List (Msg τ) :=
  if store.any (fun r => r.message_id == m.message_id) then store
  else insertByKey (fun r => r.message_id) m store

/-- The `thread_id IS NULL OR thread_id NOT IN (...)` clause, which is only
added when `ignored_thread_ids` is non-empty. -/
def threadAllowed (ignored : List Int) : Option Int → Bool
  | none => true
  | some t => ignored.isEmpty || !(ignored.contains t)

/-- The query `SELECT ... WHERE chat_id = ? AND timestamp >= ? AND timestamp < ?
[AND (thread_id IS NULL OR thread_id NOT IN (...))] ORDER BY timestamp ASC`,
scanning the table in rowid order and sorting stably by timestamp. -/
def fetch_messages_for_period {τ : Type} [LinearOrder τ] (store : List (Msg τ))
    (chat : Int) (from_dt to_dt : τ) (ignored : List Int) : List (Msg τ) :=
  sortByKey (fun r => r.timestamp)
    (store.filter fun r =>
      decide (r.chat_id = chat) && decide (from_dt ≤ r.timestamp) &&
        decide (r.timestamp < to_dt) && threadAllowed ignored r.thread_id)

/-- Number of stored rows carrying a given message id. -/
def countId {τ : Type} (store : List (Msg τ)) (i : Int) : Nat :=
  (store.filter fun r => decide (r.message_id = i)).length

/-- The store invariant maintained by `save_message`: ids are pairwise
distinct. -/
def storeWF {τ : Type} (store : List (Msg τ)) : Prop :=
  store.Pairwise fun a b => a.message_id ≠ b.message_id

/-- Folding `save_message` over a list of messages, starting from an empty
table. -/
def saveAll {τ : Type} (ms : List (Msg τ)) : List (Msg τ) :=
  ms.foldl save_message []

instance {τ : Type} [DecidableEq τ] (s : List (Msg τ)) : Decidable (storeWF s) := by
  unfold storeWF
  infer_instance

end Verter

/-! ### Generic left-to-right escaping scanner

Both `escape_markdown_v2` implementations walk the text with
`re.finditer`: at each position the next protected-span token is matched
(leftmost match wins, the first alternative of the regex is tried first);
text between tokens has every reserved character prefixed with a
backslash.  `scanAux` is the fueled generic scanner: `tokenStep` returns
the rendered output of a token matched at the current position together
with the unconsumed rest, and `esc1` escapes one non-token character. -/
def escapeWith (sp : List Char) (c : Char) : List Char :=
  if c ∈ sp then ['\\', c] else [c]

def escConcat (e1 : Char → List Char) : List Char → List Char
  | [] => []
  | c :: cs => e1 c ++ escConcat e1 cs

def scanAux (tokenStep : List Char → Option (List Char × List Char))
    (e1 : Char → List Char) : Nat → List Char → List Char
  | _, [] => []
  | 0, _ :: _ => []
  | n + 1, c :: cs =>
    match tokenStep (c :: cs) with
    | some (out, rest) => out ++ scanAux tokenStep e1 n rest
    | none => e1 c ++ scanAux tokenStep e1 n cs

def genEsc (tokenStep : List Char → Option (List Char × List Char))
    (e1 : Char → List Char) (cs : List Char) : List Char :=
  scanAux tokenStep e1 cs.length cs

namespace Verter

/-! ### Daily scheduler (`verter.py`: `scheduler`)

One loop iteration wakes at `nowAfter` after having computed the next anchor
instants from `nowBefore`; `ok` records whether the bound action succeeded
or failed in a handled way (the loop behaves identically either way). -/
structure SchedEvent where
  nowBefore : Int
  nowAfter : Int
  ok : Bool
deriving DecidableEq

/-- Day number of an instant (integer second count in the fixed timezone). -/
def dateOf (t : Int) : Int := t / 86400

/-- Computes `next_export = tz.localize(datetime.combine(now.date(), export_time));
if now >= next_export: next_export += timedelta(days=1)` for an anchor whose
time of day is `tod` seconds. -/
def nextAnchor (tod nb : Int) : Int :=
  let a := dateOf nb * 86400 + tod
  if nb ≥ a then a + 86400 else a

/-- The firing guard of one anchor on one loop iteration:
`abs((now - next_export).total_seconds()) < 60 and last_export_date != now.date()`. -/
def anchorFires (tod : Int) (last : Option Int) (e : SchedEvent) : Bool :=
  decide ((e.nowAfter - nextAnchor tod e.nowBefore).natAbs < 60) &&
    decide (¬ last = some (dateOf e.nowAfter))

/-- State update of one anchor: when the guard holds the bound action runs
and then, whether it succeeded or failed (`e.ok` is ignored),
`last_export_date = now.date()`. -/
def anchorStep (tod : Int) (last : Option Int) (e : SchedEvent) : Option Int :=
  if anchorFires tod last e then some (dateOf e.nowAfter) else last

/-- The scheduler keeps two independent anchors (export, post) in one loop;
each iteration updates both via `anchorStep`. -/
def schedulerStep (todExport todPost : Int) (s : Option Int × Option Int)
    (e : SchedEvent) : Option Int × Option Int :=
  (anchorStep todExport s.1 e, anchorStep todPost s.2 e)

/-- How many times one anchor's action fires along a trace of loop
iterations. -/
def countFires (tod : Int) (last : Option Int) : List SchedEvent → Nat
  | [] => 0
  | e :: es =>
    (if anchorFires tod last e then 1 else 0) + countFires tod (anchorStep tod last e) es

/-! ### Windowed export (`verter.py`: `export_messages`) -/
/-- Offset skew of the aware comparison in `export_messages`:
`datetime.combine(now.date(), TIME_EXPORT, tz)` attaches the pytz
`Europe/Moscow` zone object directly as `tzinfo`, which carries the zone's
first (LMT) offset +02:30, while `datetime.now(tz)` carries +03:00.
Comparing the two aware datetimes therefore compares wall-clock `now`
against the anchor's wall-clock time plus this 1800-second difference. -/
def lmtSkew : Int := 1800

/-- The window computed by `export_messages`:
`export_time = datetime.combine(now.date(), TIME_EXPORT, tz); if now <
export_time: export_time -= timedelta(days=1); from_dt = export_time;
to_dt = export_time + timedelta(days=1)`, with instants as wall-clock
seconds.  Because of [`lmtSkew`], `now < export_time` holds iff wall-clock
`now` is below the anchor's wall-clock time plus 1800 seconds.  The window
bounds are serialized with their +02:30 suffix and compared as `TEXT`
against the +03:00-suffixed stored timestamps; since the offset suffix only
decides ties of the naive prefix (and `"+02:30" < "+03:00"`), the rows
selected are exactly those whose wall-clock timestamp lies in the half-open
interval between the bounds' wall-clock parts, which is what the bounds of
this model denote. -/
def exportWindow (tod now : Int) : Int × Int :=
  let export_time := dateOf now * 86400 + tod
  let start := if now < export_time + lmtSkew then export_time - 86400 else export_time
  (start, start + 86400)

/-- One rendered line, `f"{message_id} | {username}: {text}"`. -/
def renderLine {τ : Type} (m : Msg τ) : String :=
  toString m.message_id ++ " | " ++ m.username ++ ": " ++ m.message_text

/-- The exporter writes every rendered line into the single file
`messages.txt`: one consolidated chunk, regardless of size. -/
def export_chunks (lines : List String) : List (List String) :=
  [lines]

/-- Result of one `export_messages` invocation: the queried window, the day
key of the output directory (`date_str = to_dt.strftime('%d.%m.%y')`), the
queried rows and the rendered lines. -/
structure ExportRun where
  window : Int × Int
  dirDateKey : Int
  rows : List (Msg Int)
  lines : List String
deriving DecidableEq

/-- Model of `export_messages`, up to the file writes: computes the window, the
per-day directory key, queries the store with the configured ignored-thread
set, and renders the lines that are written to the consolidated file. -/
def export_messages (tod now : Int) (store : List (Msg Int)) (chat : Int)
    (ignored : List Int) : ExportRun :=
  let w := exportWindow tod now
  { window := w
    dirDateKey := dateOf w.2
    rows := fetch_messages_for_period store chat w.1 w.2 ignored
    lines := (fetch_messages_for_period store chat w.1 w.2 ignored).map renderLine }

end Verter

namespace Rocket

/-! ### Poll-diff capture (`rocket.py`: `is_thread_reply`,
`should_show_message`, `check_for_new_messages`)

A message record of a room snapshot, with the fields the poller reads:
`_id`, `ts`, `u.username`, the optional `tmid` thread marker and `msg`. -/
structure RMessage where
  mid : String
  ts : String
  username : String
  tmid : Option String
  msg : String
deriving DecidableEq

/-- Tests `"tmid" in message`. -/
def is_thread_reply (m : RMessage) : Bool := m.tmid.isSome

/-- Empty filter list accepts everyone, otherwise the author must be
listed. -/
def should_show_message (m : RMessage) (filter_users : List String) : Bool :=
  filter_users.isEmpty || filter_users.contains m.username

/-- Builds `{msg["_id"] for msg in messages}`. -/
def currentIds (messages : List RMessage) : Finset String :=
  (messages.map fun m => m.mid).toFinset

/-- The new messages of one room poll, filtered (no thread replies, author
allowed) and sorted ascending by their `ts` send time (Python's stable
`sort`). -/
def pollSorted (seen : Finset String) (messages : List RMessage)
    (fu : List String) : List RMessage :=
  sortByKey (fun m => m.ts)
    ((messages.filter fun m => decide (m.mid ∈ currentIds messages \ seen)).filter
      fun m => !is_thread_reply m && should_show_message m fu)

/-- Outcome of polling one room: the messages successfully forwarded, the
room's seen-set afterwards, and whether a send raised (aborting the cycle). -/
structure PollOutcome where
  forwarded : List RMessage
  seenAfter : Finset String
  aborted : Bool
deriving DecidableEq

/-- One room's slice of `check_for_new_messages`: skip when the snapshot is
empty (a failed fetch also yields `[]`); compute the delta against the
seen-set; when the delta is non-empty, forward the filtered, sorted delta
(stopping at the first send failure, whose exception propagates) and — only
when no send raised — replace the seen-set by the snapshot's id set.  When
the delta is empty the `if new_message_ids:` block is skipped and the
seen-set is left unchanged. -/
def pollRoom (seen : Finset String) (messages : List RMessage) (fu : List String)
    (send : RMessage → Bool) : PollOutcome :=
  if messages = [] then ⟨[], seen, false⟩
  else if currentIds messages \ seen = ∅ then ⟨[], seen, false⟩
  else if (pollSorted seen messages fu).all send then
    ⟨pollSorted seen messages fu, currentIds messages, false⟩
  else ⟨(pollSorted seen messages fu).takeWhile send, seen, true⟩

/-- A room of `check_for_new_messages`: its seen-set entry in
`known_message_ids` and the snapshot returned by `get_messages_from_room`
(`[]` both on a failed fetch and on an empty room). -/
structure Room where
  seen : Finset String
  snapshot : List RMessage
deriving DecidableEq

/-- Result of one tick over all monitored rooms. -/
structure CycleResult where
  seens : List (Finset String)
  forwarded : List RMessage
  aborted : Bool
deriving DecidableEq

/-- Model of `check_for_new_messages`: rooms are processed in order; a send failure
raises out of the whole cycle, leaving every later room untouched. -/
def check_for_new_messages (rooms : List Room) (fu : List String)
    (send : RMessage → Bool) : CycleResult :=
  match rooms with
  | [] => ⟨[], [], false⟩
  | r :: rs =>
    let o := pollRoom r.seen r.snapshot fu send
    if o.aborted then ⟨o.seenAfter :: rs.map (fun r2 => r2.seen), o.forwarded, true⟩
    else
      let rest := check_for_new_messages rs fu send
      ⟨o.seenAfter :: rest.seens, o.forwarded ++ rest.forwarded, rest.aborted⟩

/-! ### Escaping transform (`rocket.py`: `escape_markdown_v2`) -/
/-- The reserved characters of `specials_re`:
`_ * [ ] ( ) ~ backtick > # + - = | braces . ! backslash`. -/
def specials : List Char := "_*[]()~`>#+-=|\x7b\x7d.!\\".toList

/-- Python `escape_all`: prefix every reserved character with a backslash. -/
def escape_all (s : List Char) : List Char := escConcat (escapeWith specials) s

/-- First alternative of `token_re`, `\[[^\]]+\]\([^\)]+\)`: a
`[text](url)` hyperlink, matched whole. -/
def matchLink : List Char → Option (List Char × List Char)
  | '[' :: rest =>
    match rest.takeWhile (fun c => c != ']'), rest.dropWhile (fun c => c != ']') with
    | t1 :: t1s, ']' :: '(' :: rest2 =>
      (match rest2.takeWhile (fun c => c != ')'), rest2.dropWhile (fun c => c != ')') with
      | t2 :: t2s, ')' :: rest3 =>
        some ('[' :: ((t1 :: t1s) ++ (']' :: '(' :: ((t2 :: t2s) ++ [')']))), rest3)
      | _, _ => none)
    | _, _ => none
  | _ => none

/-- Second alternative, `\*([^*]+?)\*`: a starred span; yields the inner
content. -/
def matchStar : List Char → Option (List Char × List Char)
  | '*' :: rest =>
    match rest.takeWhile (fun c => c != '*'), rest.dropWhile (fun c => c != '*') with
    | i :: is2, '*' :: rest2 => some (i :: is2, rest2)
    | _, _ => none
  | _ => none

/-- One `finditer` step: the link alternative is tried first; a link is
emitted verbatim, a starred span keeps its `*` delimiters and has its
content escaped. -/
def tokenStep (cs : List Char) : Option (List Char × List Char) :=
  match matchLink cs with
  | some (tok, rest) => some (tok, rest)
  | none =>
    match matchStar cs with
    | some (inner, rest) => some ('*' :: (escape_all inner ++ ['*']), rest)
    | none => none

def escList (cs : List Char) : List Char :=
  genEsc tokenStep (escapeWith specials) cs

def escape_markdown_v2 (s : String) : String := ⟨escList s.toList⟩

end Rocket

namespace Verter

/-! ### Escaping transform (`verter.py`: `escape_markdown_v2`)

The exporter's variant protects only Telegram links of the literal shape
`[🔗](https://t.me/c/<digits>/<non-paren>+)` and bold headers `**text**`,
which it rewrites to `*escaped-text*`. -/
/-- The reserved characters of the exporter's `special_chars`:
`_ * [ ] ( ) ~ > # + backslash - = | braces . !`. -/
def specials : List Char := "_*[]()~>#+\\-=|\x7b\x7d.!".toList

/-- Applies `re.sub` with the character class above: prefix every reserved character
with a backslash. -/
def escape_all (s : List Char) : List Char := escConcat (escapeWith specials) s

/-- The literal head of the link pattern `\[🔗\]\(https://t\.me/c/`. -/
def linkHead : List Char := "[🔗](https://t.me/c/".toList

/-- Match a literal character sequence at the head of the input, returning
the remainder. -/
def stripHead : List Char → List Char → Option (List Char)
  | [], cs => some cs
  | _ :: _, [] => none
  | p :: ps, c :: cs => if c = p then stripHead ps cs else none

/-- First alternative of the combined pattern:
`\[🔗\]\(https://t\.me/c/\d+/[^)]+\)`, matched whole (`\d` modelled as
ASCII digits). -/
def matchLink (cs : List Char) : Option (List Char × List Char) :=
  match stripHead linkHead cs with
  | none => none
  | some rest =>
    match rest.takeWhile Char.isDigit, rest.dropWhile Char.isDigit with
    | d :: ds, '/' :: rest2 =>
      (match rest2.takeWhile (fun c => c != ')'), rest2.dropWhile (fun c => c != ')') with
      | t :: ts2, ')' :: rest3 =>
        some (linkHead ++ ((d :: ds) ++ ('/' :: ((t :: ts2) ++ [')']))), rest3)
      | _, _ => none)
    | _, _ => none

/-- Second alternative, `\*\*([^\*]+)\*\*`: a bold header; yields the inner
content. -/
def matchHeader : List Char → Option (List Char × List Char)
  | '*' :: '*' :: rest =>
    match rest.takeWhile (fun c => c != '*'), rest.dropWhile (fun c => c != '*') with
    | i :: is2, '*' :: '*' :: rest2 => some (i :: is2, rest2)
    | _, _ => none
  | _ => none

/-- One `finditer` step: a link is appended as-is; a header `**X**` is
rewritten to `*{escaped X}*`. -/
def tokenStep (cs : List Char) : Option (List Char × List Char) :=
  match matchLink cs with
  | some (tok, rest) => some (tok, rest)
  | none =>
    match matchHeader cs with
    | some (inner, rest) => some ('*' :: (escape_all inner ++ ['*']), rest)
    | none => none

def escList (cs : List Char) : List Char :=
  genEsc tokenStep (escapeWith specials) cs

def escape_markdown_v2 (s : String) : String := ⟨escList s.toList⟩

end Verter

/-- Does a character list contain two consecutive escape characters? -/
def hasDoubledEscape : List Char → Bool
  | '\\' :: '\\' :: _ => true
  | _ :: cs => hasDoubledEscape cs
  | [] => false

/-! ### Theorems -/

theorem insertByKey_perm {α β : Type} [LinearOrder β] (key : α → β) (a : α) (l : List α) :
    List.Perm (insertByKey key a l) (a :: l) := by
  induction l with
  | nil => exact List.Perm.refl _
  | cons b t ih =>
    by_cases h : key a ≤ key b
    · simp [insertByKey, h]
    · simp only [insertByKey, if_neg h]
      exact (ih.cons b).trans (List.Perm.swap a b t)

theorem sortByKey_perm {α β : Type} [LinearOrder β] (key : α → β) (l : List α) :
    List.Perm (sortByKey key l) l := by
  induction l with
  | nil => exact List.Perm.refl _
  | cons a t ih =>
    exact (insertByKey_perm key a (sortByKey key t)).trans (ih.cons a)

theorem mem_insertByKey {α β : Type} [LinearOrder β] (key : α → β) (a x : α) (l : List α) :
    x ∈ insertByKey key a l ↔ x = a ∨ x ∈ l := by
  rw [(insertByKey_perm key a l).mem_iff, List.mem_cons]

theorem mem_sortByKey {α β : Type} [LinearOrder β] (key : α → β) (x : α) (l : List α) :
    x ∈ sortByKey key l ↔ x ∈ l :=
  (sortByKey_perm key l).mem_iff

theorem insertByKey_sorted {α β : Type} [LinearOrder β] (key : α → β) (a : α) (l : List α)
    (h : l.Pairwise fun x y => key x ≤ key y) :
    (insertByKey key a l).Pairwise fun x y => key x ≤ key y := by
  induction l with
  | nil => simp [insertByKey]
  | cons b t ih =>
    rw [List.pairwise_cons] at h
    obtain ⟨hb, ht⟩ := h
    by_cases hab : key a ≤ key b
    · simp only [insertByKey, if_pos hab, List.pairwise_cons]
      refine ⟨?_, ?_, ht⟩
      · intro x hx
        rcases List.mem_cons.mp hx with rfl | hx
        · exact hab
        · exact hab.trans (hb x hx)
      · exact hb
    · simp only [insertByKey, if_neg hab, List.pairwise_cons]
      refine ⟨?_, ih ht⟩
      intro x hx
      rcases (mem_insertByKey key a x t).mp hx with rfl | hx
      · exact (not_le.mp hab).le
      · exact hb x hx

theorem sortByKey_sorted {α β : Type} [LinearOrder β] (key : α → β) (l : List α) :
    (sortByKey key l).Pairwise fun x y => key x ≤ key y := by
  induction l with
  | nil => simp [sortByKey]
  | cons a t ih => exact insertByKey_sorted key a _ ih

/-- Stability of the sort, phrased through a secondary key: if the input is
strictly increasing on a secondary key `kid`, the output is sorted for the
lexicographic order (primary key, then secondary key). -/
theorem insertByKey_lex {α β γ : Type} [LinearOrder β] [LinearOrder γ]
    (key : α → β) (kid : α → γ) (a : α) (l : List α)
    (hl : l.Pairwise fun x y => key x < key y ∨ (key x = key y ∧ kid x < kid y))
    (ha : ∀ x ∈ l, kid a < kid x) :
    (insertByKey key a l).Pairwise
      fun x y => key x < key y ∨ (key x = key y ∧ kid x < kid y) := by
  induction l with
  | nil => simp [insertByKey]
  | cons b t ih =>
    rw [List.pairwise_cons] at hl
    obtain ⟨hb, ht⟩ := hl
    have hble : ∀ x ∈ t, key b ≤ key x := by
      intro x hx
      rcases hb x hx with h | h
      · exact h.le
      · exact h.1.le
    by_cases hab : key a ≤ key b
    · simp only [insertByKey, if_pos hab, List.pairwise_cons]
      refine ⟨?_, ?_, ht⟩
      · intro x hx
        have hkid : kid a < kid x := ha x hx
        have hax : key a ≤ key x := by
          rcases List.mem_cons.mp hx with h | h
          · rw [h]; exact hab
          · exact hab.trans (hble x h)
        rcases lt_or_eq_of_le hax with h | h
        · exact Or.inl h
        · exact Or.inr ⟨h, hkid⟩
      · exact hb
    · simp only [insertByKey, if_neg hab, List.pairwise_cons]
      refine ⟨?_, ih ht fun x hx => ha x (List.mem_cons_of_mem b hx)⟩
      intro x hx
      rcases (mem_insertByKey key a x t).mp hx with rfl | hx
      · exact Or.inl (not_le.mp hab)
      · exact hb x hx

theorem sortByKey_lex {α β γ : Type} [LinearOrder β] [LinearOrder γ]
    (key : α → β) (kid : α → γ) (l : List α)
    (h : l.Pairwise fun x y => kid x < kid y) :
    (sortByKey key l).Pairwise
      fun x y => key x < key y ∨ (key x = key y ∧ kid x < kid y) := by
  induction l with
  | nil => simp [sortByKey]
  | cons a t ih =>
    rw [List.pairwise_cons] at h
    obtain ⟨hh, ht⟩ := h
    refine insertByKey_lex key kid a _ (ih ht) ?_
    intro x hx
    exact hh x ((mem_sortByKey key x t).mp hx)

namespace Verter

theorem any_id_iff {τ : Type} (store : List (Msg τ)) (i : Int) :
    store.any (fun r => r.message_id == i) = true ↔ ∃ r ∈ store, r.message_id = i := by
  simp [List.any_eq_true, beq_iff_eq]

theorem countId_pos_iff {τ : Type} (store : List (Msg τ)) (i : Int) :
    0 < countId store i ↔ ∃ r ∈ store, r.message_id = i := by
  simp [countId, List.length_pos, List.filter_eq_nil_iff, decide_eq_true_eq]

theorem countId_insertByKey {τ : Type} (store : List (Msg τ)) (m : Msg τ) (i : Int) :
    countId (insertByKey (fun r => r.message_id) m store) i = countId (m :: store) i := by
  unfold countId
  rw [List.Perm.length_eq
    (List.Perm.filter _ (insertByKey_perm (fun r => r.message_id) m store))]

theorem save_message_mem_id {τ : Type} (store : List (Msg τ)) (m : Msg τ) :
    ∃ r ∈ save_message store m, r.message_id = m.message_id := by
  unfold save_message
  split
  · next h => exact (any_id_iff store m.message_id).mp h
  · next h =>
    exact ⟨m, (mem_insertByKey _ m m store).mpr (Or.inl rfl), rfl⟩

theorem save_message_of_mem {τ : Type} (store : List (Msg τ)) (m : Msg τ)
    (h : ∃ r ∈ store, r.message_id = m.message_id) : save_message store m = store := by
  unfold save_message
  rw [if_pos ((any_id_iff store m.message_id).mpr h)]

theorem storeWF_save {τ : Type} (store : List (Msg τ)) (m : Msg τ)
    (h : storeWF store) : storeWF (save_message store m) := by
  unfold save_message
  split
  · exact h
  · next hany =>
    have hnot : ∀ r ∈ store, r.message_id ≠ m.message_id := by
      intro r hr heq
      exact hany ((any_id_iff store m.message_id).mpr ⟨r, hr, heq⟩)
    have hsym : ∀ {a b : Msg τ},
        a.message_id ≠ b.message_id → b.message_id ≠ a.message_id := by
      intro a b hab h2
      exact hab h2.symm
    refine ((insertByKey_perm (fun r : Msg τ => r.message_id) m store).pairwise_iff hsym).mpr ?_
    rw [List.pairwise_cons]
    exact ⟨fun r hr h2 => hnot r hr h2.symm, h⟩

theorem countId_save_new {τ : Type} (store : List (Msg τ)) (m : Msg τ)
    (h : ¬ ∃ r ∈ store, r.message_id = m.message_id) :
    countId (save_message store m) m.message_id = 1 := by
  have hany : store.any (fun r => r.message_id == m.message_id) = false := by
    rw [← Bool.not_eq_true]
    exact fun hc => h ((any_id_iff store m.message_id).mp hc)
  have h0 : countId store m.message_id = 0 := by
    by_contra h1
    exact h ((countId_pos_iff store m.message_id).mp (Nat.pos_of_ne_zero h1))
  unfold save_message
  rw [hany]
  simp only [Bool.false_eq_true, if_false, countId_insertByKey]
  unfold countId at h0 ⊢
  simp [List.filter, h0]

theorem countId_save_old {τ : Type} (store : List (Msg τ)) (m : Msg τ)
    (hwf : storeWF store) (h : ∃ r ∈ store, r.message_id = m.message_id) :
    countId (save_message store m) m.message_id = 1 := by
  rw [save_message_of_mem store m h]
  obtain ⟨r, hr, hid⟩ := h
  -- split the store around the occurrence of `r`
  obtain ⟨l1, l2, rfl⟩ := List.append_of_mem hr
  unfold storeWF at hwf
  have h1 : ∀ x ∈ l1, x.message_id ≠ r.message_id := by
    intro x hx
    have := (List.pairwise_append.mp hwf).2.2 x hx r (List.mem_cons_self r l2)
    exact this
  have hwf2 := (List.pairwise_append.mp hwf).2.1
  rw [List.pairwise_cons] at hwf2
  have h2 : ∀ x ∈ l2, x.message_id ≠ r.message_id := fun x hx h2 =>
    hwf2.1 x hx h2.symm
  unfold countId
  rw [List.filter_append]
  have e1 : l1.filter (fun x => decide (x.message_id = m.message_id)) = [] := by
    rw [List.filter_eq_nil_iff]
    intro x hx
    simp only [decide_eq_true_eq]
    rw [← hid]
    exact h1 x hx
  have e2 : l2.filter (fun x => decide (x.message_id = m.message_id)) = [] := by
    rw [List.filter_eq_nil_iff]
    intro x hx
    simp only [decide_eq_true_eq]
    rw [← hid]
    exact h2 x hx
  simp [List.filter, e1, e2, hid]

theorem threadAllowed_iff (ignored : List Int) (tid : Option Int) :
    threadAllowed ignored tid = true ↔
      (tid = none ∨ ∀ i ∈ ignored, tid ≠ some i) := by
  cases tid with
  | none => simp [threadAllowed]
  | some t =>
    simp only [threadAllowed, Bool.or_eq_true, List.isEmpty_iff,
      Bool.not_eq_true', reduceCtorEq, false_or, Option.some.injEq]
    constructor
    · rintro (rfl | hc)
      · intro i hi
        simp at hi
      · intro i hi h
        cases Option.some.inj h
        have : ignored.contains t = true := List.elem_eq_true_of_mem hi
        rw [this] at hc
        cases hc
    · intro h
      right
      rw [← Bool.not_eq_true]
      intro hc
      have ht : t ∈ ignored := List.mem_of_elem_eq_true hc
      exact h t ht rfl

theorem saveAll_length_aux {τ : Type} (ms : List (Msg τ)) :
    ∀ s : List (Msg τ),
      (ms.map fun m => m.message_id).Pairwise (· ≠ ·) →
      (∀ m ∈ ms, ∀ r ∈ s, r.message_id ≠ m.message_id) →
      (ms.foldl save_message s).length = s.length + ms.length := by
  induction ms with
  | nil => intro s _ _; simp
  | cons m t ih =>
    intro s hdist hdisj
    rw [List.map_cons, List.pairwise_cons] at hdist
    obtain ⟨hhead, htail⟩ := hdist
    have hnomem : ¬ ∃ r ∈ s, r.message_id = m.message_id := by
      rintro ⟨r, hr, hid⟩
      exact hdisj m (List.mem_cons_self m t) r hr hid
    have hsave : save_message s m = insertByKey (fun r => r.message_id) m s := by
      unfold save_message
      rw [if_neg]
      intro hc
      exact hnomem ((any_id_iff s m.message_id).mp hc)
    have hlen : (save_message s m).length = s.length + 1 := by
      rw [hsave, (insertByKey_perm (fun r : Msg τ => r.message_id) m s).length_eq,
        List.length_cons, Nat.add_comm]
    have hdisj2 : ∀ m2 ∈ t, ∀ r ∈ save_message s m, r.message_id ≠ m2.message_id := by
      intro m2 hm2 r hr
      rw [hsave] at hr
      rcases (mem_insertByKey (fun r : Msg τ => r.message_id) m r s).mp hr with rfl | hr
      · exact hhead _ (List.mem_map_of_mem (fun m => m.message_id) hm2)
      · exact hdisj m2 (List.mem_cons_of_mem m hm2) r hr
    calc ((m :: t).foldl save_message s).length
        = (t.foldl save_message (save_message s m)).length := by rw [List.foldl_cons]
      _ = (save_message s m).length + t.length := ih _ htail hdisj2
      _ = s.length + (t.length + 1) := by rw [hlen]; omega
      _ = s.length + (m :: t).length := by rw [List.length_cons]

end Verter

/-- Claim C2: `save_message` (the Event Store `put`) is idempotent on message
ids: on a well-formed store (pairwise-distinct ids, the invariant every store
reachable by `save_message` satisfies) inserting the same id twice leaves
exactly one row with that id; well-formedness is preserved; inserting N
messages with pairwise-distinct ids into an empty store yields exactly N
rows, and permuting the insertion order does not change that count.
(`save_message` is a total function: duplicates are ignored, never an
error.) -/
theorem C2_put_idempotent {τ : Type} :
    (∀ (s : List (Verter.Msg τ)) (m m2 : Verter.Msg τ), Verter.storeWF s →
        m2.message_id = m.message_id →
        Verter.countId (Verter.save_message (Verter.save_message s m) m2)
          m.message_id = 1) ∧
    (∀ (s : List (Verter.Msg τ)) (m : Verter.Msg τ), Verter.storeWF s →
        Verter.storeWF (Verter.save_message s m)) ∧
    (∀ ms : List (Verter.Msg τ),
        (ms.map fun m => m.message_id).Pairwise (· ≠ ·) →
        (Verter.saveAll ms).length = ms.length) ∧
    (∀ ms1 ms2 : List (Verter.Msg τ), List.Perm ms1 ms2 →
        (ms1.map fun m => m.message_id).Pairwise (· ≠ ·) →
        (Verter.saveAll ms1).length = (Verter.saveAll ms2).length) := by
  refine ⟨?_, Verter.storeWF_save, ?_, ?_⟩
  · intro s m m2 hwf hid
    have h1 : ∃ r ∈ Verter.save_message s m, r.message_id = m2.message_id := by
      rw [hid]
      exact Verter.save_message_mem_id s m
    rw [Verter.save_message_of_mem _ m2 h1]
    by_cases h : ∃ r ∈ s, r.message_id = m.message_id
    · rw [Verter.save_message_of_mem s m h]
      rw [Verter.save_message_of_mem s m h] at h1
      rw [hid] at h1
      obtain ⟨r, hr, hrid⟩ := h1
      have := Verter.countId_save_old s m hwf ⟨r, hr, hrid⟩
      rwa [Verter.save_message_of_mem s m h] at this
    · exact Verter.countId_save_new s m h
  · intro ms hdist
    have := Verter.saveAll_length_aux ms [] hdist (by intro m _ r hr; cases hr)
    simpa [Verter.saveAll] using this
  · intro ms1 ms2 hperm hdist
    have hdist2 : (ms2.map fun m => m.message_id).Pairwise (· ≠ ·) := by
      have hmap := hperm.map fun m : Verter.Msg τ => m.message_id
      have hsym : ∀ {a b : Int}, a ≠ b → b ≠ a := fun h h2 => h h2.symm
      exact (hmap.pairwise_iff hsym).mp hdist
    have e1 := Verter.saveAll_length_aux ms1 [] hdist (by intro m _ r hr; cases hr)
    have e2 := Verter.saveAll_length_aux ms2 [] hdist2 (by intro m _ r hr; cases hr)
    simp only [Verter.saveAll]
    rw [e1, e2, hperm.length_eq]

/-- Witness for C2 at a concrete store: inserting id 2 twice (second time
with different field values) on a store already holding id 1 leaves exactly
one row with id 2. -/
theorem C2_put_idempotent_witness :
    Verter.countId
      (Verter.save_message
        (Verter.save_message [(⟨1, "a", "x", 0, 7, none⟩ : Verter.Msg Int)]
          ⟨2, "b", "y", 1, 7, none⟩)
        ⟨2, "c", "z", 9, 8, some 3⟩) 2 = 1 :=
  (@C2_put_idempotent Int).1 [⟨1, "a", "x", 0, 7, none⟩]
    ⟨2, "b", "y", 1, 7, none⟩ ⟨2, "c", "z", 9, 8, some 3⟩ (by decide) (by decide)

/-- Claim C10: a second `put` with an already-present message id is a
complete no-op — the store, hence every field of the first-written row, is
unchanged, whatever the duplicate's other field values are. -/
theorem C10_duplicate_put_frame {τ : Type} (s : List (Verter.Msg τ))
    (m m2 : Verter.Msg τ) (hid : m2.message_id = m.message_id) :
    Verter.save_message (Verter.save_message s m) m2 = Verter.save_message s m := by
  apply Verter.save_message_of_mem
  rw [hid]
  exact Verter.save_message_mem_id s m

/-- Witness for C10: a duplicate of id 1 with different author, text,
timestamp, chat and thread leaves the store exactly as it was. -/
theorem C10_duplicate_put_frame_witness :
    Verter.save_message
        (Verter.save_message ([] : List (Verter.Msg Int)) ⟨1, "alice", "hello", 0, 7, none⟩)
        ⟨1, "bob", "bye", 99, 8, some 5⟩ =
      Verter.save_message ([] : List (Verter.Msg Int)) ⟨1, "alice", "hello", 0, 7, none⟩ :=
  C10_duplicate_put_frame [] ⟨1, "alice", "hello", 0, 7, none⟩
    ⟨1, "bob", "bye", 99, 8, some 5⟩ (by decide)

/-- Claim C8 (amended): the store query returns exactly the rows of the
requested chat with `from_dt ≤ timestamp < to_dt`, excluding exactly the
rows whose thread id is in the exclusion set (a null thread id is never
excluded), in ascending timestamp order; ties are broken by ascending
`message_id` (the rowid scan order of the table), not by insertion order. -/
theorem C8_query_window {τ : Type} [LinearOrder τ] (store : List (Verter.Msg τ))
    (chat : Int) (from_dt to_dt : τ) (ignored : List Int) :
    (∀ r, r ∈ Verter.fetch_messages_for_period store chat from_dt to_dt ignored ↔
        (r ∈ store ∧ r.chat_id = chat ∧ from_dt ≤ r.timestamp ∧ r.timestamp < to_dt ∧
          (r.thread_id = none ∨ ∀ i ∈ ignored, r.thread_id ≠ some i))) ∧
    (Verter.fetch_messages_for_period store chat from_dt to_dt ignored).Pairwise
      (fun a b => a.timestamp ≤ b.timestamp) ∧
    ((store.Pairwise fun a b => a.message_id < b.message_id) →
      (Verter.fetch_messages_for_period store chat from_dt to_dt ignored).Pairwise
        fun a b => a.timestamp < b.timestamp ∨
          (a.timestamp = b.timestamp ∧ a.message_id < b.message_id)) ∧
    (∀ ign : List Int, Verter.threadAllowed ign none = true) := by
  refine ⟨?_, ?_, ?_, fun _ => rfl⟩
  · intro r
    unfold Verter.fetch_messages_for_period
    rw [mem_sortByKey, List.mem_filter]
    simp only [Bool.and_eq_true, decide_eq_true_eq, Verter.threadAllowed_iff]
    tauto
  · exact sortByKey_sorted _ _
  · intro h
    exact sortByKey_lex _ _ _ (h.sublist (List.filter_sublist store))

/-- Witness for C8 at a concrete store: two rows of chat 1 with timestamps
20 and 10 and a row of another chat; the query returns them sorted by
timestamp then id, and the membership characterization holds. -/
theorem C8_query_window_witness :
    ((Verter.fetch_messages_for_period
        [(⟨1, "a", "x", 20, 1, none⟩ : Verter.Msg Int), ⟨2, "b", "y", 10, 1, some 4⟩,
          ⟨3, "c", "z", 10, 2, none⟩] 1 0 100 [9]).Pairwise
      fun a b => a.timestamp < b.timestamp ∨
        (a.timestamp = b.timestamp ∧ a.message_id < b.message_id)) :=
  (C8_query_window [⟨1, "a", "x", 20, 1, none⟩, ⟨2, "b", "y", 10, 1, some 4⟩,
    ⟨3, "c", "z", 10, 2, none⟩] 1 0 100 [9]).2.2.1 (by decide)

theorem scanAux_nil (ts : List Char → Option (List Char × List Char))
    (e1 : Char → List Char) (n : Nat) : scanAux ts e1 n [] = [] := by
  cases n <;> rfl

theorem scanAux_congr (ts : List Char → Option (List Char × List Char))
    (e1 : Char → List Char)
    (hts : ∀ cs out rest, ts cs = some (out, rest) → rest.length < cs.length) :
    ∀ n m cs, cs.length ≤ n → cs.length ≤ m →
      scanAux ts e1 n cs = scanAux ts e1 m cs := by
  intro n
  induction n with
  | zero =>
    intro m cs h1 h2
    have hnil : cs = [] := List.eq_nil_of_length_eq_zero (Nat.le_zero.mp h1)
    subst hnil
    rw [scanAux_nil, scanAux_nil]
  | succ n ih =>
    intro m cs h1 h2
    cases cs with
    | nil => rw [scanAux_nil, scanAux_nil]
    | cons c cs2 =>
      cases m with
      | zero => simp at h2
      | succ m2 =>
        simp only [scanAux]
        cases h : ts (c :: cs2) with
        | some pr =>
          obtain ⟨out, rest⟩ := pr
          have hlt := hts _ _ _ h
          simp only [List.length_cons] at hlt h1 h2
          show out ++ scanAux ts e1 n rest = out ++ scanAux ts e1 m2 rest
          congr 1
          exact ih m2 rest (by omega) (by omega)
        | none =>
          simp only [List.length_cons] at h1 h2
          show e1 c ++ scanAux ts e1 n cs2 = e1 c ++ scanAux ts e1 m2 cs2
          congr 1
          exact ih m2 cs2 (by omega) (by omega)

theorem genEsc_cons_token {ts : List Char → Option (List Char × List Char)}
    {e1 : Char → List Char}
    (hts : ∀ cs out rest, ts cs = some (out, rest) → rest.length < cs.length)
    {c : Char} {cs out rest : List Char} (h : ts (c :: cs) = some (out, rest)) :
    genEsc ts e1 (c :: cs) = out ++ genEsc ts e1 rest := by
  unfold genEsc
  simp only [List.length_cons, scanAux, h]
  congr 1
  have hlt := hts _ _ _ h
  simp only [List.length_cons] at hlt
  exact scanAux_congr ts e1 hts cs.length rest.length rest (by omega) (by omega)

theorem genEsc_cons_none {ts : List Char → Option (List Char × List Char)}
    {e1 : Char → List Char} {c : Char} {cs : List Char} (h : ts (c :: cs) = none) :
    genEsc ts e1 (c :: cs) = e1 c ++ genEsc ts e1 cs := by
  unfold genEsc
  simp only [List.length_cons, scanAux, h]

/-- Decomposition of the scanner output around a token occurrence: if no
token matches anywhere inside the prefix and a token matches exactly at the
seam, the output is the escaped prefix, the token's rendering, and the scan
of the rest. -/
theorem genEsc_decomp {ts : List Char → Option (List Char × List Char)}
    {e1 : Char → List Char}
    (hts : ∀ cs out rest, ts cs = some (out, rest) → rest.length < cs.length)
    (pre tok post out : List Char) (htoknn : tok ≠ [])
    (htok : ts (tok ++ post) = some (out, post))
    (hpre : ∀ i, i < pre.length → ts (pre.drop i ++ (tok ++ post)) = none) :
    genEsc ts e1 (pre ++ (tok ++ post)) =
      escConcat e1 pre ++ (out ++ genEsc ts e1 post) := by
  induction pre with
  | nil =>
    simp only [List.nil_append, escConcat]
    cases tok with
    | nil => exact absurd rfl htoknn
    | cons t tok2 =>
      rw [List.cons_append] at htok ⊢
      rw [genEsc_cons_token hts htok]
  | cons c pre2 ih =>
    have h0 := hpre 0 (by simp)
    rw [List.drop_zero, List.cons_append] at h0
    rw [List.cons_append, genEsc_cons_none h0, escConcat]
    rw [ih fun i hi => by
      have := hpre (i + 1) (by simp only [List.length_cons]; omega)
      simpa using this]
    simp [List.append_assoc]

/-- A text in which no token matches at any position is escaped character
by character. -/
theorem genEsc_noTokens {ts : List Char → Option (List Char × List Char)}
    {e1 : Char → List Char} (cs : List Char)
    (h : ∀ i, i < cs.length → ts (cs.drop i) = none) :
    genEsc ts e1 cs = escConcat e1 cs := by
  induction cs with
  | nil => rfl
  | cons c cs2 ih =>
    have h0 := h 0 (by simp)
    rw [List.drop_zero] at h0
    rw [genEsc_cons_none h0, escConcat, ih]
    intro i hi
    have := h (i + 1) (by simp only [List.length_cons]; omega)
    simpa using this

theorem takeWhile_append_of_all {α : Type} (p : α → Bool) (l1 l2 : List α)
    (h : ∀ a ∈ l1, p a = true) :
    (l1 ++ l2).takeWhile p = l1 ++ l2.takeWhile p := by
  induction l1 with
  | nil => simp
  | cons a t ih =>
    rw [List.cons_append, List.takeWhile_cons, h a (List.mem_cons_self a t),
      List.cons_append, ih fun a2 ha2 => h a2 (List.mem_cons_of_mem a ha2)]
    simp

theorem dropWhile_append_of_all {α : Type} (p : α → Bool) (l1 l2 : List α)
    (h : ∀ a ∈ l1, p a = true) :
    (l1 ++ l2).dropWhile p = l2.dropWhile p := by
  induction l1 with
  | nil => simp
  | cons a t ih =>
    rw [List.cons_append, List.dropWhile_cons, h a (List.mem_cons_self a t),
      ih fun a2 ha2 => h a2 (List.mem_cons_of_mem a ha2)]
    simp

namespace Verter

theorem countFires_of_fired {τtod : Int} (d : Int) (tr : List SchedEvent)
    (hd : ∀ e ∈ tr, dateOf e.nowAfter = d) :
    countFires τtod (some d) tr = 0 := by
  induction tr with
  | nil => rfl
  | cons e es ih =>
    have hdate : dateOf e.nowAfter = d := hd e (List.mem_cons_self e es)
    have hguard : anchorFires τtod (some d) e = false := by
      unfold anchorFires
      rw [hdate]
      simp
    unfold countFires anchorStep
    rw [hguard]
    simp only [Bool.false_eq_true, if_false, Nat.zero_add]
    exact ih fun e2 he2 => hd e2 (List.mem_cons_of_mem e he2)

end Verter

/-- Claim C1: along any run of scheduler iterations whose wake-ups all fall
on one calendar date `d` (so that `last_fired` is never overwritten by a
firing on another date), an anchor's bound action fires at most once, even
if the wall clock passes the anchor's target several times; and whenever the
guard fires, the iteration sets the anchor's last-fired date to the wake-up
date, whether the action succeeded or failed (`anchorStep` ignores `e.ok`). -/
theorem C1_scheduler_at_most_once (tod d : Int) (tr : List Verter.SchedEvent)
    (hd : ∀ e ∈ tr, Verter.dateOf e.nowAfter = d) :
    Verter.countFires tod none tr ≤ 1 ∧
    (∀ (last : Option Int) (e : Verter.SchedEvent),
      Verter.anchorFires tod last e = true →
      Verter.anchorStep tod last e = some (Verter.dateOf e.nowAfter)) := by
  constructor
  · induction tr with
    | nil => exact Nat.zero_le 1
    | cons e es ih =>
      have hdate : Verter.dateOf e.nowAfter = d := hd e (List.mem_cons_self e es)
      have hrest : ∀ e2 ∈ es, Verter.dateOf e2.nowAfter = d := fun e2 he2 =>
        hd e2 (List.mem_cons_of_mem e he2)
      unfold Verter.countFires
      by_cases hf : Verter.anchorFires tod none e = true
      · rw [if_pos hf]
        unfold Verter.anchorStep
        rw [if_pos hf, hdate, Verter.countFires_of_fired d es hrest]
      · rw [if_neg hf]
        unfold Verter.anchorStep
        rw [if_neg hf]
        simpa using ih hrest
  · intro last e hf
    unfold Verter.anchorStep
    rw [if_pos hf]

/-- Witness for C1: the clock passes the 01:00 anchor twice on day 1 (the
loop wakes in the firing window twice, the second time after the action of
the first wake-up failed); the action fires exactly once. -/
theorem C1_scheduler_at_most_once_witness :
    Verter.countFires 3600 none
        [⟨86400 + 3500, 86400 + 3601, false⟩, ⟨86400 + 3500, 86400 + 3610, true⟩] ≤ 1 ∧
      Verter.countFires 3600 none
        [⟨86400 + 3500, 86400 + 3601, false⟩, ⟨86400 + 3500, 86400 + 3610, true⟩] = 1 :=
  ⟨(C1_scheduler_at_most_once 3600 1
      [⟨86400 + 3500, 86400 + 3601, false⟩, ⟨86400 + 3500, 86400 + 3610, true⟩]
      (by decide)).1,
    by decide⟩

/-- Claim C4: an `export_messages` invocation at an anchor instant `T`
(wall-clock `now` with `now % 86400 = tod`) queries the Event Store, with
the configured thread-exclusion set, over exactly the trailing 24-hour
half-open window `[T − 24h, T)` (the query's timestamp filter is
`from ≤ ts < to`), and the per-day output directory is keyed by the
window's end date.  The `now < export_time` branch is taken at — and for
`lmtSkew` seconds after — the anchor, because `datetime.combine` attaches
pytz Moscow's LMT offset to `export_time` while `now` carries +03:00. -/
theorem C4_export_window (tod now : Int) (store : List (Verter.Msg Int))
    (chat : Int) (ignored : List Int) (hT : now % 86400 = tod) :
    ((Verter.export_messages tod now store chat ignored).window.1 = now - 86400) ∧
    ((Verter.export_messages tod now store chat ignored).window.2 = now) ∧
    ((Verter.export_messages tod now store chat ignored).dirDateKey =
      Verter.dateOf (Verter.export_messages tod now store chat ignored).window.2) ∧
    ((Verter.export_messages tod now store chat ignored).rows =
      Verter.fetch_messages_for_period store chat (now - 86400) now ignored) := by
  simp only [Verter.export_messages, Verter.exportWindow, Verter.lmtSkew, Verter.dateOf]
  split
  · next h =>
    have e1 : now / 86400 * 86400 + tod - 86400 = now - 86400 := by omega
    have e2 : now - 86400 + 86400 = now := by omega
    refine ⟨by omega, by omega, by trivial, ?_⟩
    rw [e1, e2]
  · next h =>
    exfalso
    omega

/-- Witness for C4: invoked exactly at the 01:00 anchor of day 10, the
export queries the trailing 24-hour window ending at that instant and keys
the output directory by its end date. -/
theorem C4_export_window_witness :
    ((Verter.export_messages 3600 (86400 * 10 + 3600) [] 1 []).window.1 =
        86400 * 10 + 3600 - 86400) ∧
      ((Verter.export_messages 3600 (86400 * 10 + 3600) [] 1 []).window.2 =
        86400 * 10 + 3600) ∧
      ((Verter.export_messages 3600 (86400 * 10 + 3600) [] 1 []).dirDateKey =
        Verter.dateOf (Verter.export_messages 3600 (86400 * 10 + 3600) [] 1 []).window.2) ∧
      ((Verter.export_messages 3600 (86400 * 10 + 3600) [] 1 []).rows =
        Verter.fetch_messages_for_period [] 1 (86400 * 10 + 3600 - 86400)
          (86400 * 10 + 3600) []) :=
  C4_export_window 3600 (86400 * 10 + 3600) [] 1 [] (by decide)

/-- Claim C7 (amended): the exporter does not partition its lines by any
maximum chunk size — it always produces exactly one consolidated chunk
holding every rendered line in order (the spec's degenerate
single-consolidated-file behaviour), whatever the lines' sizes. -/
theorem C7_chunking (lines : List String) :
    Verter.export_chunks lines = [lines] ∧
    (Verter.export_chunks lines).length = 1 ∧
    (Verter.export_chunks lines).map (fun c => (c.map String.length).sum) =
      [(lines.map String.length).sum] :=
  ⟨rfl, rfl, rfl⟩

/-- Counterexample for C7 as frozen: three lines of size 10 yield one chunk
of size 30 (an overflowing chunk under the claimed maxChunkSize 25), not two
chunks of sizes `[20, 10]`. -/
theorem C7_chunking_counterexample :
    (Verter.export_chunks ["aaaaaaaaaa", "bbbbbbbbbb", "cccccccccc"]).map
        (fun c => (c.map String.length).sum) = [30] ∧
      (Verter.export_chunks ["aaaaaaaaaa", "bbbbbbbbbb", "cccccccccc"]).length ≠ 2 := by
  constructor
  · decide
  · decide

namespace Rocket

theorem is_thread_reply_eq_false_iff (m : RMessage) :
    is_thread_reply m = false ↔ m.tmid = none := by
  unfold is_thread_reply
  cases m.tmid <;> simp

theorem should_show_message_iff (m : RMessage) (fu : List String) :
    should_show_message m fu = true ↔ (fu = [] ∨ m.username ∈ fu) := by
  unfold should_show_message
  rw [Bool.or_eq_true, List.isEmpty_iff]
  constructor
  · rintro (h | h)
    · exact Or.inl h
    · exact Or.inr (List.elem_iff.mp h)
  · rintro (h | h)
    · exact Or.inl h
    · exact Or.inr (List.elem_iff.mpr h)

theorem mem_pollSorted (seen : Finset String) (messages : List RMessage)
    (fu : List String) (m : RMessage) :
    m ∈ pollSorted seen messages fu ↔
      (m ∈ messages ∧ ¬ m.mid ∈ seen ∧ m.tmid = none ∧
        (fu = [] ∨ m.username ∈ fu)) := by
  unfold pollSorted
  rw [mem_sortByKey, List.mem_filter, List.mem_filter]
  constructor
  · rintro ⟨⟨hmem, hp1⟩, hp2⟩
    rw [decide_eq_true_eq, Finset.mem_sdiff] at hp1
    rw [Bool.and_eq_true] at hp2
    refine ⟨hmem, hp1.2, ?_, ?_⟩
    · rw [← is_thread_reply_eq_false_iff, ← Bool.not_eq_true']
      exact hp2.1
    · exact (should_show_message_iff m fu).mp hp2.2
  · rintro ⟨hmem, hseen, htm, hshow⟩
    refine ⟨⟨hmem, ?_⟩, ?_⟩
    · rw [decide_eq_true_eq, Finset.mem_sdiff]
      refine ⟨?_, hseen⟩
      unfold currentIds
      rw [List.mem_toFinset]
      exact List.mem_map_of_mem (fun m => m.mid) hmem
    · rw [Bool.and_eq_true]
      refine ⟨?_, (should_show_message_iff m fu).mpr hshow⟩
      rw [Bool.not_eq_true']
      exact (is_thread_reply_eq_false_iff m).mpr htm

theorem pollSorted_sorted (seen : Finset String) (messages : List RMessage)
    (fu : List String) :
    (pollSorted seen messages fu).Pairwise fun a b => a.ts ≤ b.ts :=
  sortByKey_sorted _ _

theorem pollRoom_empty_delta {seen : Finset String} {messages : List RMessage}
    {fu : List String} {send : RMessage → Bool} (hne : messages ≠ [])
    (hdelta : currentIds messages \ seen = ∅) :
    pollRoom seen messages fu send = ⟨[], seen, false⟩ := by
  unfold pollRoom
  rw [if_neg hne, if_pos hdelta]

theorem pollRoom_all {seen : Finset String} {messages : List RMessage}
    {fu : List String} {send : RMessage → Bool} (hne : messages ≠ [])
    (hdelta : ¬ currentIds messages \ seen = ∅)
    (hall : (pollSorted seen messages fu).all send = true) :
    pollRoom seen messages fu send =
      ⟨pollSorted seen messages fu, currentIds messages, false⟩ := by
  unfold pollRoom
  rw [if_neg hne, if_neg hdelta, if_pos hall]

theorem pollRoom_fail {seen : Finset String} {messages : List RMessage}
    {fu : List String} {send : RMessage → Bool} (hne : messages ≠ [])
    (hdelta : ¬ currentIds messages \ seen = ∅)
    (hfail : ¬ (pollSorted seen messages fu).all send = true) :
    pollRoom seen messages fu send =
      ⟨(pollSorted seen messages fu).takeWhile send, seen, true⟩ := by
  unfold pollRoom
  rw [if_neg hne, if_neg hdelta, if_neg hfail]

theorem pollRoom_aborted_false {seen : Finset String} {messages : List RMessage}
    {fu : List String} {send : RMessage → Bool} (hsend : ∀ m, send m = true) :
    (pollRoom seen messages fu send).aborted = false := by
  unfold pollRoom
  split
  · rfl
  · split
    · rfl
    · split
      · rfl
      · next hfail =>
        exact absurd (List.all_eq_true.mpr fun m _ => hsend m) hfail

end Rocket

/-- Claim C3 (amended): over a room whose snapshot fetch returns a non-empty
message list, when every forward succeeds the forwarded messages are exactly
the snapshot messages whose ids are not in the seen-set, that are not thread
replies and whose author passes the (possibly empty) allow-list, in
ascending send-time order; afterwards the seen-set is replaced by exactly
the snapshot's id set when the delta is non-empty, and is left unchanged
when the delta is empty.  When forwarding one of the delta's messages fails,
the exception propagates and the seen-set is left unchanged. -/
theorem C3_poll_diff_novelty (seen : Finset String) (messages : List Rocket.RMessage)
    (fu : List String) (send : Rocket.RMessage → Bool) (hne : messages ≠ []) :
    ((∀ m ∈ messages, send m = true) →
      ((∀ m, m ∈ (Rocket.pollRoom seen messages fu send).forwarded ↔
          (m ∈ messages ∧ ¬ m.mid ∈ seen ∧ m.tmid = none ∧
            (fu = [] ∨ m.username ∈ fu))) ∧
        ((Rocket.pollRoom seen messages fu send).forwarded.Pairwise
          fun a b => a.ts ≤ b.ts) ∧
        (¬ Rocket.currentIds messages ⊆ seen →
          (Rocket.pollRoom seen messages fu send).seenAfter =
            Rocket.currentIds messages) ∧
        (Rocket.currentIds messages ⊆ seen →
          (Rocket.pollRoom seen messages fu send).seenAfter = seen))) ∧
    ((∃ m ∈ messages, ¬ m.mid ∈ seen ∧ m.tmid = none ∧
        (fu = [] ∨ m.username ∈ fu) ∧ send m = false) →
      (Rocket.pollRoom seen messages fu send).seenAfter = seen ∧
        (Rocket.pollRoom seen messages fu send).aborted = true) := by
  constructor
  · intro hall
    have hallb : (Rocket.pollSorted seen messages fu).all send = true := by
      rw [List.all_eq_true]
      intro m hm
      exact hall m ((Rocket.mem_pollSorted seen messages fu m).mp hm).1
    by_cases hsub : Rocket.currentIds messages ⊆ seen
    · have hdelta : Rocket.currentIds messages \ seen = ∅ :=
        Finset.sdiff_eq_empty_iff_subset.mpr hsub
      rw [Rocket.pollRoom_empty_delta hne hdelta]
      refine ⟨?_, List.Pairwise.nil, fun hc => absurd hsub hc, fun _ => rfl⟩
      intro m
      simp only [List.not_mem_nil, false_iff]
      rintro ⟨hm, hns, -, -⟩
      apply hns
      apply hsub
      unfold Rocket.currentIds
      rw [List.mem_toFinset]
      exact List.mem_map_of_mem (fun m => m.mid) hm
    · have hdelta : ¬ Rocket.currentIds messages \ seen = ∅ := fun hc =>
        hsub (Finset.sdiff_eq_empty_iff_subset.mp hc)
      rw [Rocket.pollRoom_all hne hdelta hallb]
      exact ⟨Rocket.mem_pollSorted seen messages fu,
        Rocket.pollSorted_sorted seen messages fu, fun _ => rfl,
        fun hc => absurd hc hsub⟩
  · rintro ⟨m, hm, hns, htm, hshow, hsendf⟩
    have hmem : m ∈ Rocket.pollSorted seen messages fu :=
      (Rocket.mem_pollSorted seen messages fu m).mpr ⟨hm, hns, htm, hshow⟩
    have hdelta : ¬ Rocket.currentIds messages \ seen = ∅ := by
      intro hc
      have hmm : m.mid ∈ Rocket.currentIds messages \ seen := by
        rw [Finset.mem_sdiff]
        refine ⟨?_, hns⟩
        unfold Rocket.currentIds
        rw [List.mem_toFinset]
        exact List.mem_map_of_mem (fun m => m.mid) hm
      rw [hc] at hmm
      exact absurd hmm (Finset.not_mem_empty _)
    have hfail : ¬ (Rocket.pollSorted seen messages fu).all send = true := by
      intro hc
      rw [List.all_eq_true] at hc
      have := hc m hmem
      rw [hsendf] at this
      cases this
    rw [Rocket.pollRoom_fail hne hdelta hfail]
    exact ⟨rfl, rfl⟩

/-- Witness for C3: seen-set `{A}`, snapshot `{B, C}` (listed out of time
order), all sends succeeding: the seen-set is replaced by exactly the
snapshot's id set. -/
theorem C3_poll_diff_novelty_witness :
    (Rocket.pollRoom {"A"}
        [⟨"C", "t2", "u", none, "x"⟩, ⟨"B", "t1", "u", none, "y"⟩] []
        (fun _ => true)).seenAfter =
      Rocket.currentIds [⟨"C", "t2", "u", none, "x"⟩, ⟨"B", "t1", "u", none, "y"⟩] :=
  ((C3_poll_diff_novelty {"A"}
      [⟨"C", "t2", "u", none, "x"⟩, ⟨"B", "t1", "u", none, "y"⟩] []
      (fun _ => true) (by decide)).1 (by decide)).2.2.1 (by decide)

/-- Counterexample for C3 as frozen: the seen-set does not become the
snapshot's id set unconditionally.  First conjunct: a failing forward leaves
the seen-set unchanged (`{A}` instead of `{B}`).  Second conjunct: an empty
delta skips the update entirely (`{A, B}` instead of `{A}`). -/
theorem C3_poll_diff_novelty_counterexample :
    ¬ ((Rocket.pollRoom {"A"} [⟨"B", "t", "u", none, "x"⟩] []
        (fun _ => false)).seenAfter =
      Rocket.currentIds [⟨"B", "t", "u", none, "x"⟩]) ∧
    ¬ ((Rocket.pollRoom {"A", "B"} [⟨"A", "t", "u", none, "x"⟩] []
        (fun _ => true)).seenAfter =
      Rocket.currentIds [⟨"A", "t", "u", none, "x"⟩]) := by
  constructor
  · decide
  · decide

/-- Claim C9 (amended): a room whose fetch fails (empty snapshot) is skipped
with no state change and without affecting the other rooms of the tick; when
every send succeeds no room aborts the cycle and every room's seen-set is
updated independently; but a send failure in one room raises out of
`check_for_new_messages`, so the remaining rooms of the same tick are not
processed at all (their seen-sets stay, their new messages are not
forwarded) — per-item containment of forward failures does not exist. -/
theorem C9_error_containment :
    (∀ (seen : Finset String) (rs : List Rocket.Room) (fu : List String)
        (send : Rocket.RMessage → Bool),
      Rocket.check_for_new_messages (⟨seen, []⟩ :: rs) fu send =
        ⟨seen :: (Rocket.check_for_new_messages rs fu send).seens,
          (Rocket.check_for_new_messages rs fu send).forwarded,
          (Rocket.check_for_new_messages rs fu send).aborted⟩) ∧
    (∀ send : Rocket.RMessage → Bool, (∀ m, send m = true) →
      ∀ (rooms : List Rocket.Room) (fu : List String),
        (Rocket.check_for_new_messages rooms fu send).aborted = false ∧
        (Rocket.check_for_new_messages rooms fu send).seens =
          rooms.map fun r => (Rocket.pollRoom r.seen r.snapshot fu send).seenAfter) ∧
    (∀ (r : Rocket.Room) (rs : List Rocket.Room) (fu : List String)
        (send : Rocket.RMessage → Bool),
      (Rocket.pollRoom r.seen r.snapshot fu send).aborted = true →
      Rocket.check_for_new_messages (r :: rs) fu send =
        ⟨(Rocket.pollRoom r.seen r.snapshot fu send).seenAfter ::
            rs.map fun r2 => r2.seen,
          (Rocket.pollRoom r.seen r.snapshot fu send).forwarded, true⟩) := by
  refine ⟨?_, ?_, ?_⟩
  · intro seen rs fu send
    rfl
  · intro send hsend rooms fu
    induction rooms with
    | nil => exact ⟨rfl, rfl⟩
    | cons r rs ih =>
      have hab : (Rocket.pollRoom r.seen r.snapshot fu send).aborted = false :=
        Rocket.pollRoom_aborted_false hsend
      simp only [Rocket.check_for_new_messages]
      rw [hab]
      simp only [Bool.false_eq_true, if_false, List.map_cons]
      exact ⟨ih.1, by rw [ih.2]⟩
  · intro r rs fu send hab
    simp only [Rocket.check_for_new_messages]
    rw [hab]
    simp

/-- Witness for C9: with an always-succeeding send, a two-room tick aborts
nowhere and updates both rooms' seen-sets independently. -/
theorem C9_error_containment_witness :
    (Rocket.check_for_new_messages
        [⟨∅, [⟨"B", "t", "u", none, "x"⟩]⟩, ⟨{"C"}, []⟩] []
        (fun _ => true)).aborted = false ∧
      (Rocket.check_for_new_messages
          [⟨∅, [⟨"B", "t", "u", none, "x"⟩]⟩, ⟨{"C"}, []⟩] []
          (fun _ => true)).seens =
        [⟨∅, [⟨"B", "t", "u", none, "x"⟩]⟩, (⟨{"C"}, []⟩ : Rocket.Room)].map
          fun r => (Rocket.pollRoom r.seen r.snapshot [] fun _ => true).seenAfter :=
  C9_error_containment.2.1 (fun _ => true) (fun _ => rfl)
    [⟨∅, [⟨"B", "t", "u", none, "x"⟩]⟩, ⟨{"C"}, []⟩] []

namespace Rocket

theorem matchStar_some {cs out rest : List Char} (h : matchStar cs = some (out, rest)) :
    out ≠ [] ∧ (∀ c ∈ out, c ≠ '*') ∧ cs = '*' :: (out ++ ('*' :: rest)) := by
  unfold matchStar at h
  split at h
  · split at h
    · rename_i i is2 rest2 heq1 heq2
      injection h with h1
      injection h1 with hout hrest
      subst hout
      subst hrest
      refine ⟨by simp, ?_, ?_⟩
      · intro ch hch
        rw [← heq1] at hch
        have := List.mem_takeWhile_imp hch
        simpa using this
      · rw [← heq1, ← heq2, List.takeWhile_append_dropWhile]
    · exact Option.noConfusion h
  · exact Option.noConfusion h

theorem matchLink_some {cs out rest : List Char} (h : matchLink cs = some (out, rest)) :
    (∃ t1 t2 : List Char, t1 ≠ [] ∧ t2 ≠ [] ∧ (∀ c ∈ t1, c ≠ ']') ∧
      (∀ c ∈ t2, c ≠ ')') ∧ out = '[' :: (t1 ++ (']' :: '(' :: (t2 ++ [')'])))) ∧
    cs = out ++ rest := by
  cases cs with
  | nil => simp [matchLink] at h
  | cons c tail =>
    unfold matchLink at h
    split at h
    · rename_i a hb
      injection hb with hc hta
      subst hc
      subst hta
      split at h
      · rename_i t1 t1s rest2 heq1 heq2
        split at h
        · rename_i t2 t2s rest3 heq3 heq4
          injection h with h1
          injection h1 with hout hrest
          subst hout
          subst hrest
          have e2 : rest2 = (t2 :: t2s) ++ (')' :: rest3) := by
            rw [← heq3, ← heq4, List.takeWhile_append_dropWhile]
          have e1 : tail = (t1 :: t1s) ++ (']' :: '(' :: rest2) := by
            rw [← heq1, ← heq2, List.takeWhile_append_dropWhile]
          constructor
          · refine ⟨t1 :: t1s, t2 :: t2s, by simp, by simp, ?_, ?_, rfl⟩
            · intro ch hch
              rw [← heq1] at hch
              have := List.mem_takeWhile_imp hch
              simpa using this
            · intro ch hch
              rw [← heq3] at hch
              have := List.mem_takeWhile_imp hch
              simpa using this
          · rw [e1, e2]
            simp
        · exact Option.noConfusion h
      · exact Option.noConfusion h
    · exact Option.noConfusion h

theorem matchStar_complete (s post : List Char) (hne : s ≠ [])
    (hstar : ∀ c ∈ s, c ≠ '*') :
    matchStar ('*' :: (s ++ ('*' :: post))) = some (s, post) := by
  cases s with
  | nil => exact absurd rfl hne
  | cons a as =>
    have hall : ∀ c ∈ a :: as, (fun c => c != '*') c = true := by
      intro c hc
      simpa using hstar c hc
    have ht : ((a :: as) ++ ('*' :: post)).takeWhile (fun c => c != '*') = a :: as := by
      rw [takeWhile_append_of_all _ _ _ hall, List.takeWhile_cons]
      simp
    have hd : ((a :: as) ++ ('*' :: post)).dropWhile (fun c => c != '*') = '*' :: post := by
      rw [dropWhile_append_of_all _ _ _ hall, List.dropWhile_cons]
      simp
    simp only [matchStar]
    rw [ht, hd]
    rfl

theorem matchLink_complete (t1 t2 post : List Char) (h1 : t1 ≠ []) (h2 : t2 ≠ [])
    (h3 : ∀ c ∈ t1, c ≠ ']') (h4 : ∀ c ∈ t2, c ≠ ')') :
    matchLink ('[' :: (t1 ++ (']' :: '(' :: (t2 ++ (')' :: post))))) =
      some ('[' :: (t1 ++ (']' :: '(' :: (t2 ++ [')']))), post) := by
  cases t1 with
  | nil => exact absurd rfl h1
  | cons a as =>
    cases t2 with
    | nil => exact absurd rfl h2
    | cons b bs =>
      have hall1 : ∀ c ∈ a :: as, (fun c => c != ']') c = true := by
        intro c hc
        simpa using h3 c hc
      have hall2 : ∀ c ∈ b :: bs, (fun c => c != ')') c = true := by
        intro c hc
        simpa using h4 c hc
      have ht1 : ((a :: as) ++ (']' :: '(' :: ((b :: bs) ++ (')' :: post)))).takeWhile
          (fun c => c != ']') = a :: as := by
        rw [takeWhile_append_of_all _ _ _ hall1, List.takeWhile_cons]
        simp
      have hd1 : ((a :: as) ++ (']' :: '(' :: ((b :: bs) ++ (')' :: post)))).dropWhile
          (fun c => c != ']') = ']' :: '(' :: ((b :: bs) ++ (')' :: post)) := by
        rw [dropWhile_append_of_all _ _ _ hall1, List.dropWhile_cons]
        simp
      have ht2 : ((b :: bs) ++ (')' :: post)).takeWhile (fun c => c != ')') = b :: bs := by
        rw [takeWhile_append_of_all _ _ _ hall2, List.takeWhile_cons]
        simp
      have hd2 : ((b :: bs) ++ (')' :: post)).dropWhile (fun c => c != ')') = ')' :: post := by
        rw [dropWhile_append_of_all _ _ _ hall2, List.dropWhile_cons]
        simp
      simp only [matchLink]
      rw [ht1, hd1]
      simp only []
      rw [ht2, hd2]
      rfl

theorem matchLink_star_none (l : List Char) : matchLink ('*' :: l) = none := rfl

theorem tokenStep_of_link {cs tok rest : List Char} (h : matchLink cs = some (tok, rest)) :
    tokenStep cs = some (tok, rest) := by
  unfold tokenStep
  rw [h]

theorem tokenStep_of_star {cs inner rest : List Char} (h1 : matchLink cs = none)
    (h2 : matchStar cs = some (inner, rest)) :
    tokenStep cs = some ('*' :: (escape_all inner ++ ['*']), rest) := by
  unfold tokenStep
  rw [h1, h2]

theorem tokenStep_consumes :
    ∀ cs out rest : List Char, tokenStep cs = some (out, rest) →
      rest.length < cs.length := by
  intro cs out rest h
  unfold tokenStep at h
  cases hl : matchLink cs with
  | some pr =>
    obtain ⟨tok, r⟩ := pr
    rw [hl] at h
    injection h with h1
    injection h1 with hout hrest
    subst hrest
    obtain ⟨⟨t1, t2, -, -, -, -, htok⟩, hcs⟩ := matchLink_some hl
    rw [hcs, htok]
    simp
    omega

  | none =>
    rw [hl] at h
    cases hs : matchStar cs with
    | some pr =>
      obtain ⟨inner, r⟩ := pr
      rw [hs] at h
      injection h with h1
      injection h1 with hout hrest
      subst hrest
      obtain ⟨-, -, hcs⟩ := matchStar_some hs
      rw [hcs]
      simp
      omega
    | none =>
      rw [hs] at h
      exact Option.noConfusion h

end Rocket

namespace Verter

theorem stripHead_some : ∀ (p cs rest : List Char),
    stripHead p cs = some rest → cs = p ++ rest := by
  intro p
  induction p with
  | nil =>
    intro cs rest h
    injection h
  | cons a ps ih =>
    intro cs rest h
    cases cs with
    | nil => exact Option.noConfusion h
    | cons c cs2 =>
      unfold stripHead at h
      split at h
      · next hca =>
        subst hca
        rw [List.cons_append, ih cs2 rest h]
      · exact Option.noConfusion h

theorem stripHead_complete : ∀ p rest : List Char, stripHead p (p ++ rest) = some rest := by
  intro p
  induction p with
  | nil => intro rest; rfl
  | cons a ps ih =>
    intro rest
    rw [List.cons_append]
    unfold stripHead
    rw [if_pos rfl]
    exact ih rest

theorem matchHeader_some {cs out rest : List Char}
    (h : matchHeader cs = some (out, rest)) :
    out ≠ [] ∧ (∀ c ∈ out, c ≠ '*') ∧
      cs = '*' :: '*' :: (out ++ ('*' :: '*' :: rest)) := by
  unfold matchHeader at h
  split at h
  · split at h
    · rename_i i is2 rest2 heq1 heq2
      injection h with h1
      injection h1 with hout hrest
      subst hout
      subst hrest
      refine ⟨by simp, ?_, ?_⟩
      · intro ch hch
        rw [← heq1] at hch
        have := List.mem_takeWhile_imp hch
        simpa using this
      · rw [← heq1, ← heq2, List.takeWhile_append_dropWhile]
    · exact Option.noConfusion h
  · exact Option.noConfusion h

theorem matchLink_some2 {cs out rest : List Char}
    (h : matchLink cs = some (out, rest)) : cs = out ++ rest ∧ out ≠ [] := by
  unfold matchLink at h
  split at h
  · exact Option.noConfusion h
  · rename_i r0 hsh
    have hcs : cs = linkHead ++ r0 := stripHead_some _ _ _ hsh
    split at h
    · rename_i d ds rest2 heq1 heq2
      split at h
      · rename_i t ts2 rest3 heq3 heq4
        injection h with h1
        injection h1 with hout hrest
        subst hout
        subst hrest
        have e2 : rest2 = (t :: ts2) ++ (')' :: rest3) := by
          rw [← heq3, ← heq4, List.takeWhile_append_dropWhile]
        have e1 : r0 = (d :: ds) ++ ('/' :: rest2) := by
          rw [← heq1, ← heq2, List.takeWhile_append_dropWhile]
        constructor
        · rw [hcs, e1, e2]
          simp
        · simp [linkHead]
      · exact Option.noConfusion h
    · exact Option.noConfusion h

theorem matchHeader_complete (s post : List Char) (hne : s ≠ [])
    (hstar : ∀ c ∈ s, c ≠ '*') :
    matchHeader ('*' :: '*' :: (s ++ ('*' :: '*' :: post))) = some (s, post) := by
  cases s with
  | nil => exact absurd rfl hne
  | cons a as =>
    have hall : ∀ c ∈ a :: as, (fun c => c != '*') c = true := by
      intro c hc
      simpa using hstar c hc
    have ht : ((a :: as) ++ ('*' :: '*' :: post)).takeWhile (fun c => c != '*') =
        a :: as := by
      rw [takeWhile_append_of_all _ _ _ hall, List.takeWhile_cons]
      simp
    have hd : ((a :: as) ++ ('*' :: '*' :: post)).dropWhile (fun c => c != '*') =
        '*' :: '*' :: post := by
      rw [dropWhile_append_of_all _ _ _ hall, List.dropWhile_cons]
      simp
    simp only [matchHeader]
    rw [ht, hd]
    rfl

theorem matchLink_complete2 (d t post : List Char) (hd1 : d ≠ [])
    (hd2 : ∀ c ∈ d, c.isDigit = true) (ht1 : t ≠ []) (ht2 : ∀ c ∈ t, c ≠ ')') :
    matchLink (linkHead ++ (d ++ ('/' :: (t ++ (')' :: post))))) =
      some (linkHead ++ (d ++ ('/' :: (t ++ [')']))), post) := by
  cases d with
  | nil => exact absurd rfl hd1
  | cons a as =>
    cases t with
    | nil => exact absurd rfl ht1
    | cons b bs =>
      have hall2 : ∀ c ∈ b :: bs, (fun c => c != ')') c = true := by
        intro c hc
        simpa using ht2 c hc
      have hta : ((a :: as) ++ ('/' :: ((b :: bs) ++ (')' :: post)))).takeWhile
          Char.isDigit = a :: as := by
        rw [takeWhile_append_of_all _ _ _ hd2, List.takeWhile_cons]
        simp
      have hda : ((a :: as) ++ ('/' :: ((b :: bs) ++ (')' :: post)))).dropWhile
          Char.isDigit = '/' :: ((b :: bs) ++ (')' :: post)) := by
        rw [dropWhile_append_of_all _ _ _ hd2, List.dropWhile_cons]
        simp
      have htb : ((b :: bs) ++ (')' :: post)).takeWhile (fun c => c != ')') =
          b :: bs := by
        rw [takeWhile_append_of_all _ _ _ hall2, List.takeWhile_cons]
        simp
      have hdb : ((b :: bs) ++ (')' :: post)).dropWhile (fun c => c != ')') =
          ')' :: post := by
        rw [dropWhile_append_of_all _ _ _ hall2, List.dropWhile_cons]
        simp
      unfold matchLink
      rw [stripHead_complete]
      simp only []
      rw [hta, hda]
      simp only []
      rw [htb, hdb]
      rfl

theorem matchLink_star_none2 (l : List Char) : matchLink ('*' :: l) = none := rfl

theorem tokenStep_of_link2 {cs tok rest : List Char}
    (h : matchLink cs = some (tok, rest)) : tokenStep cs = some (tok, rest) := by
  unfold tokenStep
  rw [h]

theorem tokenStep_of_header {cs inner rest : List Char} (h1 : matchLink cs = none)
    (h2 : matchHeader cs = some (inner, rest)) :
    tokenStep cs = some ('*' :: (escape_all inner ++ ['*']), rest) := by
  unfold tokenStep
  rw [h1, h2]

theorem tokenStep_consumes2 :
    ∀ cs out rest : List Char, tokenStep cs = some (out, rest) →
      rest.length < cs.length := by
  intro cs out rest h
  unfold tokenStep at h
  cases hl : matchLink cs with
  | some pr =>
    obtain ⟨tok, r⟩ := pr
    rw [hl] at h
    injection h with h1
    injection h1 with hout hrest
    subst hrest
    obtain ⟨hcs, hne⟩ := matchLink_some2 hl
    rw [hcs]
    cases tok with
    | nil => exact absurd rfl hne
    | cons x xs =>
      simp
      omega
  | none =>
    rw [hl] at h
    cases hs : matchHeader cs with
    | some pr =>
      obtain ⟨inner, r⟩ := pr
      rw [hs] at h
      injection h with h1
      injection h1 with hout hrest
      subst hrest
      obtain ⟨-, -, hcs⟩ := matchHeader_some hs
      rw [hcs]
      simp
      omega
    | none =>
      rw [hs] at h
      exact Option.noConfusion h

end Verter

/-- Counterexample for C9 as frozen: room 1's only new message `X` fails to
send; the cycle aborts, room 2's new message `Y` is never forwarded and room
2's seen-set is never touched — an error in one room's forwarding does abort
another room's processing in the same tick. -/
theorem C9_error_containment_counterexample :
    ¬ ((⟨"Y", "t2", "u", none, "y"⟩ : Rocket.RMessage) ∈
        (Rocket.check_for_new_messages
          [⟨∅, [⟨"X", "t1", "u", none, "x"⟩]⟩, ⟨∅, [⟨"Y", "t2", "u", none, "y"⟩]⟩]
          [] fun m => m.mid != "X").forwarded) ∧
      (Rocket.check_for_new_messages
          [⟨∅, [⟨"X", "t1", "u", none, "x"⟩]⟩, ⟨∅, [⟨"Y", "t2", "u", none, "y"⟩]⟩]
          [] fun m => m.mid != "X").aborted = true := by
  constructor
  · decide
  · decide

/-- Counterexample for C8 as frozen: with equal timestamps, rows come back in
ascending `message_id` order, not in insertion order.  Inserting id 5 first
and id 3 second, the query returns ids `[3, 5]`, while the claimed
insertion-order tie-break would give `[5, 3]`. -/
theorem C8_query_window_counterexample :
    ((Verter.fetch_messages_for_period
        (Verter.save_message
          (Verter.save_message ([] : List (Verter.Msg Int)) ⟨5, "u5", "a", 100, 1, none⟩)
          ⟨3, "u3", "b", 100, 1, none⟩) 1 0 1000 []).map fun r => r.message_id) = [3, 5] ∧
    ¬ ((Verter.fetch_messages_for_period
        (Verter.save_message
          (Verter.save_message ([] : List (Verter.Msg Int)) ⟨5, "u5", "a", 100, 1, none⟩)
          ⟨3, "u3", "b", 100, 1, none⟩) 1 0 1000 []).map fun r => r.message_id) = [5, 3] := by
  constructor
  · decide
  · decide

/-- Claim C5 (amended): running escape a second time on escape's output does
double-escape plain text outside protected spans: the escape character `\`
is itself in the reserved set of both implementations, so every escape
character the first pass inserted is escaped again by the second pass.  For
every reserved character `c`, escaping the one-character text `c` twice
yields `\\\c`, which starts with two consecutive escape characters that were
not present in the input. -/
theorem C5_reescape_doubles :
    (∀ c ∈ Rocket.specials,
      Rocket.escList (Rocket.escList [c]) = ['\\', '\\', '\\', c] ∧
        hasDoubledEscape (Rocket.escList (Rocket.escList [c])) = true ∧
        hasDoubledEscape [c] = false) ∧
    (∀ c ∈ Verter.specials,
      Verter.escList (Verter.escList [c]) = ['\\', '\\', '\\', c] ∧
        hasDoubledEscape (Verter.escList (Verter.escList [c])) = true ∧
        hasDoubledEscape [c] = false) := by
  constructor
  · decide
  · decide

/-- Witness for C5 at the reserved character `!`. -/
theorem C5_reescape_doubles_witness :
    Rocket.escList (Rocket.escList ['!']) = ['\\', '\\', '\\', '!'] ∧
      hasDoubledEscape (Rocket.escList (Rocket.escList ['!'])) = true ∧
      hasDoubledEscape ['!'] = false :=
  C5_reescape_doubles.1 '!' (by decide)

/-- Counterexample for C5 as frozen: re-escaping the output of escaping
`"!"` produces two consecutive escape characters although none were present
in the literal input, in both implementations. -/
theorem C5_reescape_doubles_counterexample :
    hasDoubledEscape (Rocket.escList (Rocket.escList "!".toList)) = true ∧
      hasDoubledEscape "!".toList = false ∧
      hasDoubledEscape (Verter.escList (Verter.escList "!".toList)) = true := by
  refine ⟨by decide, by decide, by decide⟩

/-- Claim C6 (amended): both escapers scan left to right.  In `rocket.py`'s
escaper a hyperlink `[text](url)` occurring after a token-free prefix is
copied through verbatim, a `*`-span keeps its delimiters with its content
escaped, and text in which no protected span matches anywhere — including an
unterminated span opener such as a lone `*` — is escaped character by
character.  In `verter.py`'s escaper the protected `[🔗](https://t.me/c/…)`
link is copied verbatim and token-free text is escaped character by
character, but a bold header `**X**` does not keep its delimiters intact:
it is rewritten to `*escaped-X*`. -/
theorem C6_protected_spans :
    (∀ pre t1 t2 post : List Char, t1 ≠ [] → t2 ≠ [] → (∀ c ∈ t1, c ≠ ']') →
      (∀ c ∈ t2, c ≠ ')') →
      (∀ i, i < pre.length →
        Rocket.tokenStep (pre.drop i ++
          (('[' :: (t1 ++ (']' :: '(' :: (t2 ++ [')'])))) ++ post)) = none) →
      Rocket.escList (pre ++ (('[' :: (t1 ++ (']' :: '(' :: (t2 ++ [')'])))) ++ post)) =
        Rocket.escape_all pre ++
          (('[' :: (t1 ++ (']' :: '(' :: (t2 ++ [')'])))) ++ Rocket.escList post)) ∧
    (∀ pre s post : List Char, s ≠ [] → (∀ c ∈ s, c ≠ '*') →
      (∀ i, i < pre.length →
        Rocket.tokenStep (pre.drop i ++ (('*' :: (s ++ ['*'])) ++ post)) = none) →
      Rocket.escList (pre ++ (('*' :: (s ++ ['*'])) ++ post)) =
        Rocket.escape_all pre ++
          (('*' :: (Rocket.escape_all s ++ ['*'])) ++ Rocket.escList post)) ∧
    (∀ cs : List Char, (∀ i, i < cs.length → Rocket.tokenStep (cs.drop i) = none) →
      Rocket.escList cs = Rocket.escape_all cs) ∧
    (∀ pre d t post : List Char, d ≠ [] → (∀ c ∈ d, c.isDigit = true) → t ≠ [] →
      (∀ c ∈ t, c ≠ ')') →
      (∀ i, i < pre.length →
        Verter.tokenStep (pre.drop i ++
          ((Verter.linkHead ++ (d ++ ('/' :: (t ++ [')'])))) ++ post)) = none) →
      Verter.escList (pre ++ ((Verter.linkHead ++ (d ++ ('/' :: (t ++ [')'])))) ++ post)) =
        Verter.escape_all pre ++
          ((Verter.linkHead ++ (d ++ ('/' :: (t ++ [')'])))) ++ Verter.escList post)) ∧
    (∀ pre s post : List Char, s ≠ [] → (∀ c ∈ s, c ≠ '*') →
      (∀ i, i < pre.length →
        Verter.tokenStep (pre.drop i ++
          (('*' :: '*' :: (s ++ ['*', '*'])) ++ post)) = none) →
      Verter.escList (pre ++ (('*' :: '*' :: (s ++ ['*', '*'])) ++ post)) =
        Verter.escape_all pre ++
          (('*' :: (Verter.escape_all s ++ ['*'])) ++ Verter.escList post)) ∧
    (∀ cs : List Char, (∀ i, i < cs.length → Verter.tokenStep (cs.drop i) = none) →
      Verter.escList cs = Verter.escape_all cs) := by
  refine ⟨?_, ?_, ?_, ?_, ?_, ?_⟩
  · intro pre t1 t2 post h1 h2 h3 h4 hpre
    have heq : ('[' :: (t1 ++ (']' :: '(' :: (t2 ++ [')'])))) ++ post =
        '[' :: (t1 ++ (']' :: '(' :: (t2 ++ (')' :: post)))) := by
      simp
    have htok : Rocket.tokenStep (('[' :: (t1 ++ (']' :: '(' :: (t2 ++ [')'])))) ++ post) =
        some ('[' :: (t1 ++ (']' :: '(' :: (t2 ++ [')']))), post) := by
      rw [heq]
      exact Rocket.tokenStep_of_link (Rocket.matchLink_complete t1 t2 post h1 h2 h3 h4)
    exact genEsc_decomp Rocket.tokenStep_consumes pre _ post _ (by simp) htok hpre
  · intro pre s post hs hstar hpre
    have heq : ('*' :: (s ++ ['*'])) ++ post = '*' :: (s ++ ('*' :: post)) := by
      simp
    have htok : Rocket.tokenStep (('*' :: (s ++ ['*'])) ++ post) =
        some ('*' :: (Rocket.escape_all s ++ ['*']), post) := by
      rw [heq]
      exact Rocket.tokenStep_of_star (Rocket.matchLink_star_none _)
        (Rocket.matchStar_complete s post hs hstar)
    exact genEsc_decomp Rocket.tokenStep_consumes pre _ post _ (by simp) htok hpre
  · intro cs hpre
    exact genEsc_noTokens cs hpre
  · intro pre d t post hd1 hd2 ht1 ht2 hpre
    have heq : (Verter.linkHead ++ (d ++ ('/' :: (t ++ [')'])))) ++ post =
        Verter.linkHead ++ (d ++ ('/' :: (t ++ (')' :: post)))) := by
      simp
    have htok : Verter.tokenStep ((Verter.linkHead ++ (d ++ ('/' :: (t ++ [')'])))) ++ post) =
        some (Verter.linkHead ++ (d ++ ('/' :: (t ++ [')']))), post) := by
      rw [heq]
      exact Verter.tokenStep_of_link2 (Verter.matchLink_complete2 d t post hd1 hd2 ht1 ht2)
    refine genEsc_decomp Verter.tokenStep_consumes2 pre _ post _ ?_ htok hpre
    simp [Verter.linkHead]
  · intro pre s post hs hstar hpre
    have heq : ('*' :: '*' :: (s ++ ['*', '*'])) ++ post =
        '*' :: '*' :: (s ++ ('*' :: '*' :: post)) := by
      simp
    have htok : Verter.tokenStep (('*' :: '*' :: (s ++ ['*', '*'])) ++ post) =
        some ('*' :: (Verter.escape_all s ++ ['*']), post) := by
      rw [heq]
      exact Verter.tokenStep_of_header (Verter.matchLink_star_none2 _)
        (Verter.matchHeader_complete s post hs hstar)
    exact genEsc_decomp Verter.tokenStep_consumes2 pre _ post _ (by simp) htok hpre
  · intro cs hpre
    exact genEsc_noTokens cs hpre

/-- Witness for C6: concrete instances of the starred-span conjuncts —
`"!*hi* x"` under the rocket escaper and `"!**hi** x"` under the verter
escaper. -/
theorem C6_protected_spans_witness :
    (Rocket.escList (['!'] ++ (('*' :: (['h', 'i'] ++ ['*'])) ++ [' ', 'x'])) =
      Rocket.escape_all ['!'] ++
        (('*' :: (Rocket.escape_all ['h', 'i'] ++ ['*'])) ++ Rocket.escList [' ', 'x'])) ∧
    (Verter.escList (['!'] ++ (('*' :: '*' :: (['h', 'i'] ++ ['*', '*'])) ++ [' ', 'x'])) =
      Verter.escape_all ['!'] ++
        (('*' :: (Verter.escape_all ['h', 'i'] ++ ['*'])) ++ Verter.escList [' ', 'x'])) :=
  ⟨C6_protected_spans.2.1 ['!'] ['h', 'i'] [' ', 'x'] (by decide) (by decide) (by decide),
    (C6_protected_spans.2.2.2.2.1) ['!'] ['h', 'i'] [' ', 'x'] (by decide) (by decide)
      (by decide)⟩

/-- Counterexample for C6 as frozen: the claim's "delimiters intact with
inner content escaped" predicts `**Hi\.**` for the verter escaper on input
`**Hi.**`; the code instead rewrites the `**` delimiters to `*`. -/
theorem C6_protected_spans_counterexample :
    Verter.escape_markdown_v2 "**Hi.**" = "*Hi\\.*" ∧
      Verter.escape_markdown_v2 "**Hi.**" ≠ "**Hi\\.**" := by
  refine ⟨by decide, by decide⟩

end TgBot
